import Mathlib

/-!
Verification of the `pub` package of the go-fed/activity federation library
(files `pub/util.go` and `pub/transport.go`) against its natural-language
specification. Each Go function relevant to the specified properties is
shallow-embedded as an executable Lean definition, translated from the Go
source; theorems then settle the specified properties.

Modelling conventions, used throughout:
- A Go `*url.URL` is modelled by `Url`: only its `String()` rendering is ever
  inspected by the code under study, and the `tag` field distinguishes
  distinct pointer values that render to the same string.
- Go maps keyed by `id.String()` are modelled by lists of strings with
  membership tests; writing `m[k] = v` only ever extends the key set, and for
  string values an overwrite stores an equal value, so a key-set view is
  exact. Go map iteration order is unspecified; where the code iterates a
  map to append values, the model fixes the first-insertion order. All
  properties proved below are insensitive to that order (they are stated on
  sets of strings).
- Fallible Go functions returning `error` are modelled with `Except String`
  or `Option`.
-/

set_option maxHeartbeats 1000000

namespace GoFedPub

/-- A Go `*url.URL` value. The functions modelled here only ever call its
`String()` method (field `str`); `tag` distinguishes distinct pointers whose
string renderings coincide, so statements about which element of a list
survives an operation are faithful to the pointer-level Go code. -/
structure Url where
  str : String
  tag : Nat := 0
  deriving DecidableEq, Repr

/-- Model of `dedupeIRIs` from `src/pub/util.go` (inner loop). `ignoredStrs`
is the key set of Go's `ignoredMap`, `outStrs` the key set of `outMap` built
so far. An element is appended to the output exactly when its string form is
in neither map, and then its string is added to `outMap`. -/
def dedupeIRIsGo : List Url → List String → List String → List Url
  | [], _, _ => []
  | k :: rest, ignoredStrs, outStrs =>
    if k.str ∈ ignoredStrs ∨ k.str ∈ outStrs then
      dedupeIRIsGo rest ignoredStrs outStrs
    else
      k :: dedupeIRIsGo rest ignoredStrs (k.str :: outStrs)

/-- Model of `dedupeIRIs(recipients, ignored)` from `src/pub/util.go`:
deduplicate the final inbox IRIs by string form, dropping IRIs whose string
form occurs in `ignored`. -/
def dedupeIRIs (recipients ignored : List Url) : List Url :=
  dedupeIRIsGo recipients (ignored.map Url.str) []

/-- An element of an `orderedItems` property, as `dedupeOrderedItems`
inspects it: either an embedded ActivityStreams value (`GetType()` non-nil,
with its optional `id` property, optional `href` property, and whether the
type structurally satisfies the `hrefer` interface), a bare IRI, or neither
(the error case of the Go loop). -/
inductive OrderedItem where
  | value (idProp hrefProp : Option Url) (hrefer : Bool)
  | iri (u : Url)
  | other
  deriving DecidableEq, Repr

/-- Model of the id computation `dedupeOrderedItems` performs on one element:
for an embedded value it calls `GetId` (the `id` property if present,
otherwise `href` when the type is a `hrefer`); for an IRI element the IRI
itself; `none` stands for any of the Go error returns (an embedded value with
neither `id` nor usable `href`, or an element that is neither a value nor an
IRI). -/
def itemId : OrderedItem → Option Url
  | .value (some u) _ _ => some u
  | .value none hrefProp hrefer => if hrefer then hrefProp else none
  | .iri u => some u
  | .other => none

/-- The id of an element rendered as a string, when it has one. -/
def itemIdStr (x : OrderedItem) : Option String :=
  (itemId x).map Url.str

/-- Model of the loop of `dedupeOrderedItems` from `src/pub/util.go`, with
`seen` the key set of the Go `seen` map. The Go loop mutates the property in
place with `Remove(i)`; the model returns the list of elements it keeps, in
order. The distinct Go error messages are merged into one, as only
success/failure is specified. -/
def dedupeOrderedItemsGo : List OrderedItem → List String → Except String (List OrderedItem)
  | [], _ => .ok []
  | x :: rest, seen =>
    match itemId x with
    | none => .error "element in OrderedCollection does not have an ID nor is an IRI"
    | some u =>
      if u.str ∈ seen then
        dedupeOrderedItemsGo rest seen
      else
        match dedupeOrderedItemsGo rest (u.str :: seen) with
        | .ok r => .ok (x :: r)
        | .error e => .error e

/-- Model of `dedupeOrderedItems` from `src/pub/util.go`, acting on the
`orderedItems` list of an ordered collection. -/
def dedupeOrderedItems (l : List OrderedItem) : Except String (List OrderedItem) :=
  dedupeOrderedItemsGo l []

theorem dedupeIRIsGo_sublist (r : List Url) (ign seen : List String) :
    (dedupeIRIsGo r ign seen).Sublist r := by
  induction r generalizing seen with
  | nil => simp [dedupeIRIsGo]
  | cons k rest ih =>
    simp only [dedupeIRIsGo]
    split
    · exact (ih seen).cons k
    · exact (ih _).cons₂ k

theorem mem_dedupeIRIsGo (r : List Url) (ign seen : List String) (u : Url)
    (hu : u ∈ dedupeIRIsGo r ign seen) : u ∈ r ∧ u.str ∉ ign ∧ u.str ∉ seen := by
  induction r generalizing seen with
  | nil => simp [dedupeIRIsGo] at hu
  | cons k rest ih =>
    simp only [dedupeIRIsGo] at hu
    split at hu
    · obtain ⟨h1, h2, h3⟩ := ih seen hu
      exact ⟨List.mem_cons_of_mem _ h1, h2, h3⟩
    · rename_i h
      push_neg at h
      rcases List.mem_cons.mp hu with rfl | hu2
      · exact ⟨List.mem_cons_self _ _, h.1, h.2⟩
      · obtain ⟨h1, h2, h3⟩ := ih _ hu2
        exact ⟨List.mem_cons_of_mem _ h1, h2,
          fun hs => h3 (List.mem_cons_of_mem _ hs)⟩

theorem find_dedupeIRIsGo (r : List Url) (ign seen : List String) (u : Url)
    (hu : u ∈ dedupeIRIsGo r ign seen) :
    r.find? (fun v => v.str == u.str) = some u := by
  induction r generalizing seen with
  | nil => simp [dedupeIRIsGo] at hu
  | cons k rest ih =>
    simp only [dedupeIRIsGo] at hu
    split at hu
    · rename_i h
      have hmem := mem_dedupeIRIsGo rest ign seen u hu
      have hne : ¬((fun (v : Url) => v.str == u.str) k) = true := by
        simp only [beq_iff_eq]
        intro he
        rcases h with h | h
        · exact hmem.2.1 (he ▸ h)
        · exact hmem.2.2 (he ▸ h)
      rw [List.find?_cons_of_neg rest hne]
      exact ih seen hu
    · rcases List.mem_cons.mp hu with rfl | hu2
      · exact List.find?_cons_of_pos rest (by simp)
      · have hmem := mem_dedupeIRIsGo rest ign _ u hu2
        have hne : ¬((fun (v : Url) => v.str == u.str) k) = true := by
          simp only [beq_iff_eq]
          intro he
          exact hmem.2.2 (he ▸ List.mem_cons_self k.str seen)
        rw [List.find?_cons_of_neg rest hne]
        exact ih _ hu2

theorem nodup_dedupeIRIsGo (r : List Url) (ign seen : List String) :
    ((dedupeIRIsGo r ign seen).map Url.str).Nodup := by
  induction r generalizing seen with
  | nil => simp [dedupeIRIsGo]
  | cons k rest ih =>
    simp only [dedupeIRIsGo]
    split
    · exact ih seen
    · simp only [List.map_cons, List.nodup_cons]
      refine ⟨fun hmem => ?_, ih _⟩
      obtain ⟨v, hv, he⟩ := List.mem_map.mp hmem
      exact (mem_dedupeIRIsGo _ _ _ _ hv).2.2
        (by rw [he]; exact List.mem_cons_self _ _)

theorem coverage_dedupeIRIsGo (r : List Url) (ign seen : List String) (u : Url)
    (hu : u ∈ r) (hign : u.str ∉ ign) (hseen : u.str ∉ seen) :
    u.str ∈ (dedupeIRIsGo r ign seen).map Url.str := by
  induction r generalizing seen with
  | nil => simp at hu
  | cons k rest ih =>
    simp only [dedupeIRIsGo]
    rcases List.mem_cons.mp hu with rfl | hu2
    · rw [if_neg (by push_neg; exact ⟨hign, hseen⟩)]
      simp
    · split
      · exact ih seen hu2 hseen
      · by_cases he : u.str = k.str
        · simp [he]
        · have hss : u.str ∉ k.str :: seen := by
            intro hmem
            rcases List.mem_cons.mp hmem with h1 | h1
            · exact he h1
            · exact hseen h1
          simp only [List.map_cons, List.mem_cons]
          exact Or.inr (ih _ hu2 hss)

/-- C9: `dedupeIRIs` returns a list containing no IRI whose string form is in
the ignored list, no two entries with the same string form, exactly the first
occurrence of each surviving IRI string, in the original relative order of
the input (a sublist of the input). -/
theorem dedupeIRIs_correct (recipients ignored : List Url) :
    (dedupeIRIs recipients ignored).Sublist recipients ∧
    ((dedupeIRIs recipients ignored).map Url.str).Nodup ∧
    (∀ u ∈ dedupeIRIs recipients ignored, u.str ∉ ignored.map Url.str) ∧
    (∀ u ∈ recipients, u.str ∉ ignored.map Url.str →
      u.str ∈ (dedupeIRIs recipients ignored).map Url.str) ∧
    (∀ u ∈ dedupeIRIs recipients ignored,
      recipients.find? (fun v => v.str == u.str) = some u) := by
  refine ⟨dedupeIRIsGo_sublist _ _ _, nodup_dedupeIRIsGo _ _ _, ?_, ?_, ?_⟩
  · intro u hu
    exact (mem_dedupeIRIsGo _ _ _ _ hu).2.1
  · intro u hu hign
    exact coverage_dedupeIRIsGo _ _ _ _ hu hign (List.not_mem_nil _)
  · intro u hu
    exact find_dedupeIRIsGo _ _ _ _ hu

/-- Concrete instantiation of `dedupeIRIs_correct`: two pointers rendering to
the string a, one rendering to b with b ignored. -/
theorem dedupeIRIs_correct_witness :
    (dedupeIRIs [⟨"a", 0⟩, ⟨"b", 0⟩, ⟨"a", 1⟩] [⟨"b", 5⟩]).Sublist
      [⟨"a", 0⟩, ⟨"b", 0⟩, ⟨"a", 1⟩] ∧
    dedupeIRIs [⟨"a", 0⟩, ⟨"b", 0⟩, ⟨"a", 1⟩] [⟨"b", 5⟩] = [⟨"a", 0⟩] :=
  ⟨(dedupeIRIs_correct [⟨"a", 0⟩, ⟨"b", 0⟩, ⟨"a", 1⟩] [⟨"b", 5⟩]).1, by decide⟩

theorem dedupeOrderedItemsGo_ok_ids (l : List OrderedItem) (seen : List String)
    (out : List OrderedItem) (h : dedupeOrderedItemsGo l seen = .ok out) :
    ∀ x ∈ l, itemId x ≠ none := by
  induction l generalizing seen out with
  | nil => simp
  | cons x rest ih =>
    simp only [dedupeOrderedItemsGo] at h
    split at h
    · exact absurd h (by simp)
    · rename_i u hid
      intro y hy
      rcases List.mem_cons.mp hy with rfl | hy2
      · simp [hid]
      · split at h
        · exact ih seen out h y hy2
        · split at h
          · rename_i r hrec
            exact ih _ r hrec y hy2
          · exact absurd h (by simp)

theorem dedupeOrderedItemsGo_error_ids (l : List OrderedItem) (seen : List String)
    (e : String) (h : dedupeOrderedItemsGo l seen = .error e) :
    ∃ x ∈ l, itemId x = none := by
  induction l generalizing seen e with
  | nil => simp [dedupeOrderedItemsGo] at h
  | cons x rest ih =>
    simp only [dedupeOrderedItemsGo] at h
    split at h
    · rename_i hid
      exact ⟨x, List.mem_cons_self _ _, hid⟩
    · split at h
      · obtain ⟨y, hy, hynone⟩ := ih seen e h
        exact ⟨y, List.mem_cons_of_mem _ hy, hynone⟩
      · split at h
        · exact absurd h (by simp)
        · rename_i e2 hrec
          obtain ⟨y, hy, hynone⟩ := ih _ e2 hrec
          exact ⟨y, List.mem_cons_of_mem _ hy, hynone⟩

theorem dedupeOrderedItemsGo_sublist (l : List OrderedItem) (seen : List String)
    (out : List OrderedItem) (h : dedupeOrderedItemsGo l seen = .ok out) :
    out.Sublist l := by
  induction l generalizing seen out with
  | nil =>
    simp only [dedupeOrderedItemsGo, Except.ok.injEq] at h
    subst h
    exact List.Sublist.refl _
  | cons x rest ih =>
    simp only [dedupeOrderedItemsGo] at h
    split at h
    · exact absurd h (by simp)
    · split at h
      · exact (ih seen out h).cons x
      · split at h
        · rename_i r hrec
          simp only [Except.ok.injEq] at h
          subst h
          exact (ih _ r hrec).cons₂ x
        · exact absurd h (by simp)

theorem dedupeOrderedItemsGo_mem (l : List OrderedItem) (seen : List String)
    (out : List OrderedItem) (h : dedupeOrderedItemsGo l seen = .ok out)
    (x : OrderedItem) (hx : x ∈ out) :
    ∃ u, itemId x = some u ∧ u.str ∉ seen := by
  induction l generalizing seen out with
  | nil =>
    simp only [dedupeOrderedItemsGo, Except.ok.injEq] at h
    subst h
    simp at hx
  | cons y rest ih =>
    simp only [dedupeOrderedItemsGo] at h
    split at h
    · exact absurd h (by simp)
    · rename_i u hid
      split at h
      · exact ih seen out h hx
      · rename_i hs
        split at h
        · rename_i r hrec
          simp only [Except.ok.injEq] at h
          subst h
          rcases List.mem_cons.mp hx with rfl | hx2
          · exact ⟨u, hid, hs⟩
          · obtain ⟨v, hv, hvs⟩ := ih _ r hrec hx2
            exact ⟨v, hv, fun hmem => hvs (List.mem_cons_of_mem _ hmem)⟩
        · exact absurd h (by simp)

theorem dedupeOrderedItemsGo_nodup (l : List OrderedItem) (seen : List String)
    (out : List OrderedItem) (h : dedupeOrderedItemsGo l seen = .ok out) :
    (out.map itemIdStr).Nodup := by
  induction l generalizing seen out with
  | nil =>
    simp only [dedupeOrderedItemsGo, Except.ok.injEq] at h
    subst h
    simp
  | cons x rest ih =>
    simp only [dedupeOrderedItemsGo] at h
    split at h
    · exact absurd h (by simp)
    · rename_i u hid
      split at h
      · exact ih seen out h
      · split at h
        · rename_i r hrec
          simp only [Except.ok.injEq] at h
          subst h
          simp only [List.map_cons, List.nodup_cons]
          refine ⟨fun hmem => ?_, ih _ r hrec⟩
          obtain ⟨y, hy, hey⟩ := List.mem_map.mp hmem
          obtain ⟨v, hv, hvs⟩ := dedupeOrderedItemsGo_mem rest _ r hrec y hy
          simp only [itemIdStr, hv, hid, Option.map_some', Option.some.injEq] at hey
          exact hvs (by rw [hey]; exact List.mem_cons_self _ _)
        · exact absurd h (by simp)

theorem dedupeOrderedItemsGo_coverage (l : List OrderedItem) (seen : List String)
    (out : List OrderedItem) (h : dedupeOrderedItemsGo l seen = .ok out)
    (x : OrderedItem) (hx : x ∈ l) (u : Url) (hid : itemId x = some u)
    (hs : u.str ∉ seen) : some u.str ∈ out.map itemIdStr := by
  induction l generalizing seen out with
  | nil => simp at hx
  | cons y rest ih =>
    simp only [dedupeOrderedItemsGo] at h
    split at h
    · exact absurd h (by simp)
    · rename_i v hvid
      rcases List.mem_cons.mp hx with rfl | hx2
      · rw [hid] at hvid
        obtain rfl : u = v := by injection hvid
        split at h
        · exact absurd (by assumption) hs
        · split at h
          · rename_i r hrec
            simp only [Except.ok.injEq] at h
            subst h
            simp [itemIdStr, hid]
          · exact absurd h (by simp)
      · split at h
        · exact ih seen out h hx2 hs
        · split at h
          · rename_i r hrec
            simp only [Except.ok.injEq] at h
            subst h
            by_cases he : u.str = v.str
            · simp [itemIdStr, hvid, he]
            · have hs2 : u.str ∉ v.str :: seen := by
                intro hmem
                rcases List.mem_cons.mp hmem with h1 | h1
                · exact he h1
                · exact hs h1
              simp only [List.map_cons, List.mem_cons]
              exact Or.inr (ih _ r hrec hx2 hs2)
          · exact absurd h (by simp)

theorem dedupeOrderedItemsGo_find (l : List OrderedItem) (seen : List String)
    (out : List OrderedItem) (h : dedupeOrderedItemsGo l seen = .ok out)
    (x : OrderedItem) (hx : x ∈ out) :
    l.find? (fun y => itemIdStr y == itemIdStr x) = some x := by
  induction l generalizing seen out with
  | nil =>
    simp only [dedupeOrderedItemsGo, Except.ok.injEq] at h
    subst h
    simp at hx
  | cons k rest ih =>
    simp only [dedupeOrderedItemsGo] at h
    split at h
    · exact absurd h (by simp)
    · rename_i u hkid
      split at h
      · rename_i hs
        obtain ⟨v, hvid, hvs⟩ := dedupeOrderedItemsGo_mem rest seen out h x hx
        have hne : ¬((fun (y : OrderedItem) => itemIdStr y == itemIdStr x) k) = true := by
          simp only [beq_iff_eq, itemIdStr, hkid, hvid, Option.map_some',
            Option.some.injEq]
          intro he
          exact hvs (he ▸ hs)
        rw [List.find?_cons_of_neg rest hne]
        exact ih seen out h hx
      · split at h
        · rename_i r hrec
          simp only [Except.ok.injEq] at h
          subst h
          rcases List.mem_cons.mp hx with rfl | hx2
          · exact List.find?_cons_of_pos rest (by simp)
          · obtain ⟨v, hvid, hvs⟩ := dedupeOrderedItemsGo_mem rest _ r hrec x hx2
            have hne : ¬((fun (y : OrderedItem) => itemIdStr y == itemIdStr x) k) = true := by
              simp only [beq_iff_eq, itemIdStr, hkid, hvid, Option.map_some',
                Option.some.injEq]
              intro he
              exact hvs (he ▸ List.mem_cons_self u.str seen)
            rw [List.find?_cons_of_neg rest hne]
            exact ih _ r hrec hx2
        · exact absurd h (by simp)

/-- C2: `dedupeOrderedItems` fails exactly when some element has neither an
id nor is an IRI; on success it keeps, in their original relative order (a
sublist), exactly the first occurrence of each id: remaining ids are pairwise
distinct, every id occurring in the input still occurs, and each kept element
is the first element of the input carrying its id. -/
theorem dedupeOrderedItems_correct (l : List OrderedItem) :
    ((∃ e, dedupeOrderedItems l = .error e) ↔ ∃ x ∈ l, itemId x = none) ∧
    ∀ out, dedupeOrderedItems l = .ok out →
      out.Sublist l ∧
      (out.map itemIdStr).Nodup ∧
      (∀ x ∈ l, ∀ u, itemId x = some u → some u.str ∈ out.map itemIdStr) ∧
      (∀ x ∈ out, l.find? (fun y => itemIdStr y == itemIdStr x) = some x) := by
  constructor
  · constructor
    · rintro ⟨e, he⟩
      exact dedupeOrderedItemsGo_error_ids l [] e he
    · rintro ⟨x, hx, hnone⟩
      cases hh : dedupeOrderedItems l with
      | ok out => exact absurd hnone (dedupeOrderedItemsGo_ok_ids l [] out hh x hx)
      | error e => exact ⟨e, rfl⟩
  · intro out h
    exact ⟨dedupeOrderedItemsGo_sublist l [] out h,
      dedupeOrderedItemsGo_nodup l [] out h,
      fun x hx u hid =>
        dedupeOrderedItemsGo_coverage l [] out h x hx u hid (List.not_mem_nil _),
      fun x hx => dedupeOrderedItemsGo_find l [] out h x hx⟩

/-- Concrete instantiation of `dedupeOrderedItems_correct`: a duplicate IRI
is removed, the first occurrence and a distinct embedded value survive. -/
theorem dedupeOrderedItems_correct_witness :
    dedupeOrderedItems [.iri ⟨"a", 0⟩, .iri ⟨"a", 1⟩,
        .value (some ⟨"b", 0⟩) none false] =
      Except.ok [.iri ⟨"a", 0⟩, .value (some ⟨"b", 0⟩) none false] ∧
    ([OrderedItem.iri ⟨"a", 0⟩,
        OrderedItem.value (some ⟨"b", 0⟩) none false].map itemIdStr).Nodup :=
  ⟨rfl, ((dedupeOrderedItems_correct [.iri ⟨"a", 0⟩, .iri ⟨"a", 1⟩,
      .value (some ⟨"b", 0⟩) none false]).2 _ rfl).2.1⟩

/-- The five addressing properties of one ActivityStreams value, each as the
list of its recipient IRI strings (the ids `ToId` yields on the property's
elements; a `ToId` failure aborts `normalizeRecipients` with an error, and
the property under study quantifies over error-free runs only). `[]` doubles
for an absent property, which the Go code materialises as a fresh empty one
before reading it. The field for the `to` property is spelled `to'` since
`to` is reserved in Lean. -/
structure Addressing where
  to' : List String
  bto : List String
  cc : List String
  bcc : List String
  audience : List String
  deriving DecidableEq, Repr

/-- A Create activity as `normalizeRecipients` from `src/pub/util.go` sees
it: its own addressing and the addressing of each value embedded in its
`object` property. Object entries that are bare IRIs, or whose type lacks one
of the five addressing properties, make the Go function return an error
before any of the phases modelled below run, so error-free runs are exactly
the activities this structure covers. -/
structure CreateActivity where
  act : Addressing
  objs : List Addressing
  deriving DecidableEq, Repr

/-- Phase 2 of `normalizeRecipients` for one object and one dimension: the
object list `o` is extended by every key of the activity's Phase-0 map that
the object's Phase-1 map lacks. The Go maps are keyed by `id.String()` and
membership in them is membership of the string; map iteration is modelled in
first-insertion order (`dedup`), which none of the set-level statements
proved below depend on. -/
def objAfter (a o : List String) : List String :=
  o ++ a.dedup.filter (fun k => !(decide (k ∈ o)))

/-- Phase 3 of `normalizeRecipients` for one dimension: the activity list `a`
is extended, for each object in turn, by the keys of that object's Phase-1
map missing from the activity's Phase-0 map. The Phase-0 map is never
updated, so two objects sharing a key the activity lacks both append it. -/
def actAfter (a : List String) (os : List (List String)) : List String :=
  a ++ (os.map (fun o => o.dedup.filter (fun k => !(decide (k ∈ a))))).flatten

/-- Model of `normalizeRecipients` from `src/pub/util.go`: each of the five
addressing dimensions of the activity and of every object is rewritten by
`actAfter` / `objAfter`. The dimensions never interact. -/
def normalizeRecipients (c : CreateActivity) : CreateActivity :=
  { act :=
      { to' := actAfter c.act.to' (c.objs.map Addressing.to')
        bto := actAfter c.act.bto (c.objs.map Addressing.bto)
        cc := actAfter c.act.cc (c.objs.map Addressing.cc)
        bcc := actAfter c.act.bcc (c.objs.map Addressing.bcc)
        audience := actAfter c.act.audience (c.objs.map Addressing.audience) }
    objs := c.objs.map (fun o =>
      { to' := objAfter c.act.to' o.to'
        bto := objAfter c.act.bto o.bto
        cc := objAfter c.act.cc o.cc
        bcc := objAfter c.act.bcc o.bcc
        audience := objAfter c.act.audience o.audience }) }

/-- The union, as a set of IRI strings, of a list of recipient lists. -/
def unionSets (ls : List (List String)) : Finset String :=
  ls.foldr (fun o s => o.toFinset ∪ s) ∅

theorem unionSets_nil : unionSets [] = ∅ := rfl

theorem unionSets_cons (o : List String) (ls : List (List String)) :
    unionSets (o :: ls) = o.toFinset ∪ unionSets ls := rfl

theorem mem_unionSets (ls : List (List String)) (x : String) :
    x ∈ unionSets ls ↔ ∃ o ∈ ls, x ∈ o := by
  induction ls with
  | nil => simp [unionSets_nil]
  | cons o rest ih => simp [unionSets_cons, ih]

theorem objAfter_toFinset (a o : List String) :
    (objAfter a o).toFinset = o.toFinset ∪ a.toFinset := by
  ext x
  simp only [objAfter, List.toFinset_append, Finset.mem_union, List.mem_toFinset,
    List.mem_filter, List.mem_dedup, Bool.not_eq_true', decide_eq_false_iff_not]
  constructor
  · rintro (hx | ⟨hx, _⟩)
    · exact Or.inl hx
    · exact Or.inr hx
  · rintro (hx | hx)
    · exact Or.inl hx
    · by_cases ho : x ∈ o
      · exact Or.inl ho
      · exact Or.inr ⟨hx, ho⟩

theorem actAfter_mem (a : List String) (os : List (List String)) (x : String) :
    x ∈ actAfter a os ↔ x ∈ a ∨ ∃ o ∈ os, x ∈ o := by
  simp only [actAfter, List.mem_append, List.mem_flatten, List.mem_map]
  constructor
  · rintro (hx | ⟨l, ⟨o, ho, rfl⟩, hxl⟩)
    · exact Or.inl hx
    · rcases List.mem_filter.mp hxl with ⟨hxo, _⟩
      exact Or.inr ⟨o, ho, List.mem_dedup.mp hxo⟩
  · rintro (hx | ⟨o, ho, hxo⟩)
    · exact Or.inl hx
    · by_cases ha : x ∈ a
      · exact Or.inl ha
      · refine Or.inr ⟨_, ⟨o, ho, rfl⟩, ?_⟩
        rw [List.mem_filter, List.mem_dedup]
        simp [hxo, ha]

theorem normalizeDim_act (a : List String) (os : List (List String))
    (h : os ≠ []) :
    (actAfter a os).toFinset = unionSets (os.map (objAfter a)) := by
  obtain ⟨o0, ho0⟩ := List.exists_mem_of_ne_nil os h
  ext x
  rw [List.mem_toFinset, actAfter_mem, mem_unionSets]
  simp only [List.mem_map]
  constructor
  · rintro (hx | ⟨o, ho, hxo⟩)
    · refine ⟨objAfter a o0, ⟨o0, ho0, rfl⟩, ?_⟩
      have hmem : x ∈ (objAfter a o0).toFinset := by
        rw [objAfter_toFinset]
        simp [hx]
      exact List.mem_toFinset.mp hmem
    · refine ⟨objAfter a o, ⟨o, ho, rfl⟩, ?_⟩
      have hmem : x ∈ (objAfter a o).toFinset := by
        rw [objAfter_toFinset]
        simp [hxo]
      exact List.mem_toFinset.mp hmem
  · rintro ⟨l, ⟨o, ho, rfl⟩, hxl⟩
    have hmem : x ∈ (objAfter a o).toFinset := List.mem_toFinset.mpr hxl
    rw [objAfter_toFinset] at hmem
    rcases Finset.mem_union.mp hmem with hx | hx
    · exact Or.inr ⟨o, ho, List.mem_toFinset.mp hx⟩
    · exact Or.inl (List.mem_toFinset.mp hx)

theorem forall2_map {α β : Type} (R : α → β → Prop) (f : α → β) (l : List α)
    (h : ∀ x ∈ l, R x (f x)) : List.Forall₂ R l (l.map f) := by
  induction l with
  | nil => simp
  | cons x rest ih =>
    exact List.Forall₂.cons (h x (by simp))
      (ih (fun y hy => h y (by simp [hy])))

theorem normalizeRecipients_objs_to (c : CreateActivity) :
    (normalizeRecipients c).objs.map Addressing.to' =
      (c.objs.map Addressing.to').map (objAfter c.act.to') := by
  simp only [normalizeRecipients, List.map_map]
  rfl

theorem normalizeRecipients_objs_bto (c : CreateActivity) :
    (normalizeRecipients c).objs.map Addressing.bto =
      (c.objs.map Addressing.bto).map (objAfter c.act.bto) := by
  simp only [normalizeRecipients, List.map_map]
  rfl

theorem normalizeRecipients_objs_cc (c : CreateActivity) :
    (normalizeRecipients c).objs.map Addressing.cc =
      (c.objs.map Addressing.cc).map (objAfter c.act.cc) := by
  simp only [normalizeRecipients, List.map_map]
  rfl

theorem normalizeRecipients_objs_bcc (c : CreateActivity) :
    (normalizeRecipients c).objs.map Addressing.bcc =
      (c.objs.map Addressing.bcc).map (objAfter c.act.bcc) := by
  simp only [normalizeRecipients, List.map_map]
  rfl

theorem normalizeRecipients_objs_audience (c : CreateActivity) :
    (normalizeRecipients c).objs.map Addressing.audience =
      (c.objs.map Addressing.audience).map (objAfter c.act.audience) := by
  simp only [normalizeRecipients, List.map_map]
  rfl

/-- C1 (amended): for every Create activity whose object list is nonempty,
after `normalizeRecipients` every addressing dimension of the activity, as a
set of IRI strings, equals the union of the objects' sets for that dimension;
and each object's dimension becomes exactly its original set united with the
activity's original set — in particular recipients of one object are never
merged into another object. (With zero objects the activity keeps its own
recipients while the union over objects is empty, refuting the unconditional
claim; see the counterexample below.) -/
theorem normalizeRecipients_correct (c : CreateActivity) (h : c.objs ≠ []) :
    ((normalizeRecipients c).act.to'.toFinset =
        unionSets ((normalizeRecipients c).objs.map Addressing.to') ∧
      (normalizeRecipients c).act.bto.toFinset =
        unionSets ((normalizeRecipients c).objs.map Addressing.bto) ∧
      (normalizeRecipients c).act.cc.toFinset =
        unionSets ((normalizeRecipients c).objs.map Addressing.cc) ∧
      (normalizeRecipients c).act.bcc.toFinset =
        unionSets ((normalizeRecipients c).objs.map Addressing.bcc) ∧
      (normalizeRecipients c).act.audience.toFinset =
        unionSets ((normalizeRecipients c).objs.map Addressing.audience)) ∧
    List.Forall₂ (fun o o2 : Addressing =>
        o2.to'.toFinset = o.to'.toFinset ∪ c.act.to'.toFinset ∧
        o2.bto.toFinset = o.bto.toFinset ∪ c.act.bto.toFinset ∧
        o2.cc.toFinset = o.cc.toFinset ∪ c.act.cc.toFinset ∧
        o2.bcc.toFinset = o.bcc.toFinset ∪ c.act.bcc.toFinset ∧
        o2.audience.toFinset = o.audience.toFinset ∪ c.act.audience.toFinset)
      c.objs (normalizeRecipients c).objs := by
  have hne : ∀ f : Addressing → List String, c.objs.map f ≠ [] := by
    intro f hmap
    exact h (List.map_eq_nil_iff.mp hmap)
  refine ⟨⟨?_, ?_, ?_, ?_, ?_⟩, ?_⟩
  · rw [normalizeRecipients_objs_to]
    exact normalizeDim_act c.act.to' (c.objs.map Addressing.to') (hne _)
  · rw [normalizeRecipients_objs_bto]
    exact normalizeDim_act c.act.bto (c.objs.map Addressing.bto) (hne _)
  · rw [normalizeRecipients_objs_cc]
    exact normalizeDim_act c.act.cc (c.objs.map Addressing.cc) (hne _)
  · rw [normalizeRecipients_objs_bcc]
    exact normalizeDim_act c.act.bcc (c.objs.map Addressing.bcc) (hne _)
  · rw [normalizeRecipients_objs_audience]
    exact normalizeDim_act c.act.audience (c.objs.map Addressing.audience) (hne _)
  · apply forall2_map
    intro o ho
    exact ⟨objAfter_toFinset _ _, objAfter_toFinset _ _, objAfter_toFinset _ _,
      objAfter_toFinset _ _, objAfter_toFinset _ _⟩

/-- C1 counterexample to the unconditional claim: a Create whose object
property is empty keeps the recipients in its own `to` after
`normalizeRecipients`, while the union over its (zero) objects is empty. -/
theorem normalizeRecipients_claim_false :
    ¬ ((normalizeRecipients ⟨⟨["x"], [], [], [], []⟩, []⟩).act.to'.toFinset =
      unionSets ((normalizeRecipients
        ⟨⟨["x"], [], [], [], []⟩, []⟩).objs.map Addressing.to')) := by
  decide

/-- Concrete instantiation of `normalizeRecipients_correct`: one object with
one recipient each on activity and object. -/
theorem normalizeRecipients_correct_witness :
    (normalizeRecipients
        ⟨⟨["x"], [], [], [], []⟩, [⟨["y"], [], [], [], []⟩]⟩).act.to'.toFinset =
      unionSets ((normalizeRecipients
        ⟨⟨["x"], [], [], [], []⟩, [⟨["y"], [], [], [], []⟩]⟩).objs.map
          Addressing.to') :=
  ((normalizeRecipients_correct ⟨⟨["x"], [], [], [], []⟩,
    [⟨["y"], [], [], [], []⟩]⟩ (by decide)).1).1

mutual
/-- An ActivityStreams value as `clearSensitiveFields` from `src/pub/util.go`
traverses it: its `bto` and `bcc` recipient entries, the values embedded in
its `object` property, and the values embedded in its other value-bearing
properties (`tag`, `inReplyTo`, `target`, ... — the same file's
`getInboxForwardingValues` reads such embeddings; `clearSensitiveFields`
never visits them, so one representative list `tagChildren` stands for all
of them). Property entries that are bare IRIs are skipped by the Go code
(`iter.GetType()` is nil, and a type assertion on a nil interface fails, so
each clause is a no-op), and an IRI carries no `bto`/`bcc`; a value lacking
one of the properties behaves as carrying the empty list. -/
inductive ASValue where
  | mk (bto bcc : List Url) (objectChildren tagChildren : ASValueList)
/-- A list of embedded ActivityStreams values (spelled as a mutual inductive
so that all functions below are structurally recursive and computable by the
kernel). -/
inductive ASValueList where
  | nil
  | cons (head : ASValue) (tail : ASValueList)
end

mutual
/-- Model of `clearSensitiveFields` from `src/pub/util.go`: empty the `bto`
and `bcc` properties (the Go loops `Remove(0)` until `Len() = 0`) and recurse
into every value embedded in the `object` property. No other property is
visited. -/
def clearSensitiveFields : ASValue → ASValue
  | .mk _ _ objs tags => .mk [] [] (clearSensitiveFieldsList objs) tags
/-- `clearSensitiveFields` applied to each embedded `object` value in turn. -/
def clearSensitiveFieldsList : ASValueList → ASValueList
  | .nil => .nil
  | .cons v rest => .cons (clearSensitiveFields v) (clearSensitiveFieldsList rest)
end

mutual
/-- The property C3 claims: no `bto` or `bcc` entry anywhere in the tree, on
the value itself and on every value reachable from it through any
value-bearing property. -/
def treeClear : ASValue → Bool
  | .mk bto bcc objs tags =>
    bto.isEmpty && bcc.isEmpty && treeClearList objs && treeClearList tags
/-- `treeClear` on every member of a list. -/
def treeClearList : ASValueList → Bool
  | .nil => true
  | .cons v rest => treeClear v && treeClearList rest
end

mutual
/-- The property the code establishes: no `bto` or `bcc` on the value and on
every value reachable through chains of the `object` property alone. -/
def objectChainClear : ASValue → Bool
  | .mk bto bcc objs _ => bto.isEmpty && bcc.isEmpty && objectChainClearList objs
/-- `objectChainClear` on every member of a list. -/
def objectChainClearList : ASValueList → Bool
  | .nil => true
  | .cons v rest => objectChainClear v && objectChainClearList rest
end

mutual
theorem clearSensitiveFields_objectChainClear (v : ASValue) :
    objectChainClear (clearSensitiveFields v) = true := by
  cases v with
  | mk bto bcc objs tags =>
    rw [clearSensitiveFields, objectChainClear]
    simp [clearSensitiveFieldsList_objectChainClear objs]
theorem clearSensitiveFieldsList_objectChainClear (l : ASValueList) :
    objectChainClearList (clearSensitiveFieldsList l) = true := by
  cases l with
  | nil => rfl
  | cons v rest =>
    rw [clearSensitiveFieldsList, objectChainClearList]
    simp [clearSensitiveFields_objectChainClear v,
      clearSensitiveFieldsList_objectChainClear rest]
end

/-- C3 (amended): after `clearSensitiveFields`, the value and every value
reachable from it through chains of the `object` property have empty `bto`
and `bcc`. Values embedded under other properties (`tag`, `inReplyTo`,
`target`, ...) are not visited, so the original claim quantifying over every
value reachable in the tree fails; see the counterexample. -/
theorem clearSensitiveFields_correct (v : ASValue) :
    objectChainClear (clearSensitiveFields v) = true :=
  clearSensitiveFields_objectChainClear v

/-- C3 counterexample: a value whose `tag` property embeds a value with a
`bto` recipient still has that `bto` after `clearSensitiveFields`; the tree
is not clear of `bto`/`bcc`. -/
theorem clearSensitiveFields_claim_false :
    treeClear (clearSensitiveFields
      (ASValue.mk [] [] ASValueList.nil
        (ASValueList.cons (ASValue.mk [⟨"s", 0⟩] [] ASValueList.nil ASValueList.nil)
          ASValueList.nil))) = false := rfl

/-- Model of Go `strings.Join(elems, sep)`. -/
def stringsJoin : List String → String → String
  | [], _ => ""
  | [a], _ => a
  | a :: rest, sep => a ++ sep ++ stringsJoin rest sep

/-- Model of `BatchDeliver` from `src/pub/transport.go`. `deliver r` is the
outcome of `h.Deliver(c, b, r)` for recipient `r`: `none` on success,
`some e` with the formatted error text on failure. Each goroutine sends its
error, if any, into a channel of capacity `len(recipients)`, so the sends
never block and all complete before `wg.Wait()` returns; the drain loop then
collects exactly the failures. Their multiset is deterministic even though
goroutine scheduling is not; the model fixes recipient order, and the
properties proved below do not depend on the order. -/
def BatchDeliver (deliver : Url → Option String) (recipients : List Url) :
    Option String :=
  let errs := (recipients.map deliver).filterMap id
  if errs.length > 0 then
    some ("batch deliver had at least one failure: " ++ stringsJoin errs "; ")
  else
    none

theorem mem_data_infix_stringsJoin (e : String) (errs : List String)
    (sep : String) (he : e ∈ errs) :
    List.IsInfix e.data (stringsJoin errs sep).data := by
  induction errs with
  | nil => simp at he
  | cons a rest ih =>
    cases rest with
    | nil =>
      rw [List.mem_singleton] at he
      subst he
      exact ⟨[], [], by simp [stringsJoin]⟩
    | cons a2 rest2 =>
      rcases List.mem_cons.mp he with rfl | he2
      · refine ⟨[], (sep ++ stringsJoin (a2 :: rest2) sep).data, ?_⟩
        simp [stringsJoin, String.data_append]
      · obtain ⟨s, t, hst⟩ := ih he2
        refine ⟨(a ++ sep).data ++ s, t, ?_⟩
        simp only [stringsJoin, String.data_append, List.append_assoc]
        rw [← List.append_assoc s, hst]

/-- C4: `BatchDeliver` returns nil exactly when every recipient's delivery
succeeded; otherwise it returns one aggregate error whose text contains the
error of every recipient whose delivery failed. Every recipient is
delivered to (each contributes its own outcome; no failure aborts the rest,
which is structural in the model and matches the Go fan-out that joins all
goroutines before inspecting errors). -/
theorem BatchDeliver_correct (deliver : Url → Option String)
    (recipients : List Url) :
    (BatchDeliver deliver recipients = none ↔
      ∀ r ∈ recipients, deliver r = none) ∧
    (∀ r e, r ∈ recipients → deliver r = some e →
      ∃ s, BatchDeliver deliver recipients = some s ∧
        List.IsInfix e.data s.data) := by
  constructor
  · rw [BatchDeliver]
    split
    · rename_i hlen
      constructor
      · intro hcontra
        simp at hcontra
      · intro hall
        rw [List.filterMap_eq_nil_iff.mpr (by
          intro o ho
          obtain ⟨r, hr, rfl⟩ := List.mem_map.mp ho
          simp [hall r hr])] at hlen
        simp at hlen
    · rename_i hlen
      have herrs : (recipients.map deliver).filterMap id = [] :=
        List.length_eq_zero.mp (by omega)
      constructor
      · intro _ r hr
        have hnone := List.filterMap_eq_nil_iff.mp herrs (deliver r)
          (List.mem_map_of_mem deliver hr)
        simpa using hnone
      · intro _
        rfl
  · intro r e hr he
    have hmem : e ∈ (recipients.map deliver).filterMap id :=
      List.mem_filterMap.mpr ⟨some e, by
        rw [← he]; exact List.mem_map_of_mem deliver hr, rfl⟩
    have hlen : ((recipients.map deliver).filterMap id).length > 0 :=
      List.length_pos.mpr (List.ne_nil_of_mem hmem)
    refine ⟨"batch deliver had at least one failure: " ++
      stringsJoin ((recipients.map deliver).filterMap id) "; ", ?_, ?_⟩
    · rw [BatchDeliver]
      split
      · rfl
      · rename_i h2
        exact absurd hlen h2
    · obtain ⟨s, t, hst⟩ := mem_data_infix_stringsJoin e _ "; " hmem
      exact ⟨"batch deliver had at least one failure: ".data ++ s, t, by
        rw [String.data_append, List.append_assoc, List.append_assoc,
          ← List.append_assoc s, hst]⟩

/-- Concrete instantiation of `BatchDeliver_correct`: two recipients, the
second failing; its error text occurs in the aggregate error. -/
theorem BatchDeliver_correct_witness :
    ∃ s, BatchDeliver
        (fun r => if r.str = "bad" then some "POST request to bad failed" else none)
        [⟨"good", 0⟩, ⟨"bad", 0⟩] = some s ∧
      List.IsInfix ("POST request to bad failed").data s.data :=
  (BatchDeliver_correct
    (fun r => if r.str = "bad" then some "POST request to bad failed" else none)
    [⟨"good", 0⟩, ⟨"bad", 0⟩]).2 ⟨"bad", 0⟩ "POST request to bad failed"
    (by simp) (by simp)

/-- The fields of an ActivityStreams value that `toTombstone` from
`src/pub/util.go` reads: its type name (`GetTypeName()`) and its optional
`published` and `updated` properties (time values modelled as `Nat`). -/
structure ASTypeValue where
  typeName : String
  published : Option Nat
  updated : Option Nat
  deriving DecidableEq, Repr

/-- The Tombstone `toTombstone` constructs: `id` as set, `formerType` the
list of values appended to the fresh property (the Go code appends exactly
one XMLSchema string, the type name of `obj`), `published`/`updated` copied
when present, `deleted` set to `now`. -/
structure Tombstone where
  id : Url
  formerType : List String
  published : Option Nat
  updated : Option Nat
  deleted : Nat
  deriving DecidableEq, Repr

/-- Model of `toTombstone(obj, id, now)` from `src/pub/util.go`. -/
def toTombstone (obj : ASTypeValue) (id : Url) (now : Nat) : Tombstone :=
  { id := id
    formerType := [obj.typeName]
    published := obj.published
    updated := obj.updated
    deleted := now }

/-- A Tombstone viewed again as a value `toTombstone` can consume, as the
Delete handler would on a second Delete of the same IRI: the generated
Tombstone vocab type reports `GetTypeName() = "Tombstone"` and exposes the
`published` and `updated` properties copied onto it. -/
def Tombstone.asValue (t : Tombstone) : ASTypeValue :=
  { typeName := "Tombstone", published := t.published, updated := t.updated }

/-- C6 (amended): applying the tombstone construction twice agrees with
applying it once at the second time for `id`, `published`, `updated` and
`deleted` — but `formerType` becomes `Tombstone` (the first tombstone's type
name) instead of the object's original type, so the construction is not
idempotent on `formerType`. -/
theorem toTombstone_twice (obj : ASTypeValue) (id : Url) (t1 t2 : Nat) :
    toTombstone ((toTombstone obj id t1).asValue) id t2 =
      { toTombstone obj id t2 with formerType := ["Tombstone"] } := rfl

/-- C6 counterexample: for a Note, the twice-applied construction records
`formerType = Tombstone` while a single application at the same time records
`formerType = Note`; `published` and `updated` do agree. -/
theorem toTombstone_not_idempotent :
    (toTombstone ((toTombstone ⟨"Note", some 5, none⟩ ⟨"i", 0⟩ 1).asValue)
        ⟨"i", 0⟩ 2 ≠
      toTombstone ⟨"Note", some 5, none⟩ ⟨"i", 0⟩ 2) ∧
    (toTombstone ((toTombstone ⟨"Note", some 5, none⟩ ⟨"i", 0⟩ 1).asValue)
        ⟨"i", 0⟩ 2).published =
      (toTombstone ⟨"Note", some 5, none⟩ ⟨"i", 0⟩ 2).published := by
  refine ⟨?_, rfl⟩
  intro h
  have := congrArg Tombstone.formerType h
  simp [toTombstone, Tombstone.asValue] at this

/-- An entry of an activity's `object` property as
`mustHaveActivityActorsMatchObjectActors` from `src/pub/util.go` inspects
it: an embedded value (`iter.GetType()` non-nil) carrying the actor ids of
its own `actor` property, a bare IRI, or neither. -/
inductive ObjectEntry where
  | value (actorIds : List String)
  | iriRef (iri : Url)
  | other
  deriving DecidableEq, Repr

/-- Model of `mustHaveActivityActorsMatchObjectActors` from
`src/pub/util.go`. `actorIds` is the id set of the activity's `actor`
property (a `ToId` failure there errors out before the loop and is not
modelled). `deref` abstracts the dereference pipeline applied to an
IRI-only entry — `newTransport`, `Dereference`, `json.Unmarshal`,
`streams.ToType` and the `actorer` assertion — returning the dereferenced
value's actor ids, or `none` for a failure at any stage. The Go control
flow is kept exactly: only an entry with `t == nil && iter.IsIRI()` takes
the dereference branch; every other entry, including an embedded value
(`t != nil`), falls into the `else` branch and returns the
"neither a value nor IRI" error. The per-actor loop errors at the first
actor id missing from `actorIds`; the model tests them all at once, which
has the same success/error outcome. -/
def mustHaveActivityActorsMatchObjectActors
    (deref : Url → Option (List String)) (actorIds : List String) :
    List ObjectEntry → Except String Unit
  | [] => .ok ()
  | e :: rest =>
    match e with
    | .iriRef iri =>
      match deref iri with
      | none => .error "dereference failed"
      | some objActors =>
        if objActors.all (fun i => decide (i ∈ actorIds)) then
          mustHaveActivityActorsMatchObjectActors deref actorIds rest
        else
          .error "activity does not have all actors from its objects actors"
    | _ => .error "cannot verify actors: object is neither a value nor IRI"

/-- C5: the code diverges from the claim on embedded object values. An
object entry that is an embedded value whose actors all occur in the
activity's actor list is rejected with the "neither a value nor IRI" error
(the message contradicting itself: the entry is a value), while the same
actor set offered through an IRI that dereferences to it passes. The claim
— and the function's own doc comment — requires the embedded value to be
checked directly and accepted here. -/
theorem mustHaveActivityActorsMatchObjectActors_value_bug :
    mustHaveActivityActorsMatchObjectActors
        (fun _ => some ["https://a.example/a"]) ["https://a.example/a"]
        [ObjectEntry.value ["https://a.example/a"]] =
      .error "cannot verify actors: object is neither a value nor IRI" ∧
    mustHaveActivityActorsMatchObjectActors
        (fun _ => some ["https://a.example/a"]) ["https://a.example/a"]
        [ObjectEntry.iriRef ⟨"https://b.example/note", 0⟩] =
      .ok () ∧
    mustHaveActivityActorsMatchObjectActors
        (fun _ => some ["https://b.example/b"]) ["https://a.example/a"]
        [ObjectEntry.iriRef ⟨"https://b.example/note", 0⟩] =
      .error "activity does not have all actors from its objects actors" :=
  ⟨rfl, rfl, rfl⟩

/-- The list `activityStreamsMediaTypes` built at `init` time in
`src/pub/util.go`: `application/activity+json`, then the eight
`application/ld+json` forms, one per combination of semicolon spacing
(`";"`, `" ;"`, `" ; "`, `"; "`) and unquoted/quoted profile parameter. -/
def activityStreamsMediaTypes : List String :=
  ["application/activity+json"] ++
    ([";", " ;", " ; ", "; "].map (fun semi =>
      ["profile=https://www.w3.org/ns/activitystreams",
       "profile=\"https://www.w3.org/ns/activitystreams\""].map (fun profile =>
        "application/ld+json" ++ semi ++ profile))).flatten

/-- Go `strings.Contains(s, sub)`: `sub` occurs as a contiguous substring
of `s` (on the underlying bytes; the strings involved are ASCII, so the
byte view and the character view coincide). -/
def stringContains (s sub : String) : Bool :=
  decide (List.IsInfix sub.data s.data)

/-- Model of `headerIsActivityPubMediaType` from `src/pub/util.go`. -/
def headerIsActivityPubMediaType (header : String) : Bool :=
  activityStreamsMediaTypes.any (fun mediaType => stringContains header mediaType)

/-- The parts of an `*http.Request` that `IsActivityPubRequest` reads:
`r.Method` and the `Content-Type` and `Accept` headers (`r.Header.Get` of
those keys). -/
structure HTTPRequest where
  method : String
  contentType : String
  accept : String
  deriving DecidableEq, Repr

/-- Model of `isActivityPubPost` from `src/pub/util.go`. -/
def isActivityPubPost (r : HTTPRequest) : Bool :=
  r.method == "POST" && headerIsActivityPubMediaType r.contentType

/-- Model of `isActivityPubGet` from `src/pub/util.go`. -/
def isActivityPubGet (r : HTTPRequest) : Bool :=
  r.method == "GET" && headerIsActivityPubMediaType r.accept

/-- Model of `IsActivityPubRequest` from `src/pub/util.go`. -/
def IsActivityPubRequest (r : HTTPRequest) : Bool :=
  isActivityPubGet r || isActivityPubPost r

/-- C8: `IsActivityPubRequest` holds exactly for a POST whose Content-Type
contains one of the accepted media types or a GET whose Accept does, where
the accepted set is `application/activity+json` together with the eight
whitespace/quoting variants of `application/ld+json` with the
activitystreams profile parameter, as enumerated in the second conjunct. -/
theorem IsActivityPubRequest_correct (r : HTTPRequest) :
    (IsActivityPubRequest r = true ↔
      ((r.method = "POST" ∧ ∃ mt ∈ activityStreamsMediaTypes,
          List.IsInfix mt.data r.contentType.data) ∨
        (r.method = "GET" ∧ ∃ mt ∈ activityStreamsMediaTypes,
          List.IsInfix mt.data r.accept.data))) ∧
    activityStreamsMediaTypes =
      ["application/activity+json",
       "application/ld+json;profile=https://www.w3.org/ns/activitystreams",
       "application/ld+json;profile=\"https://www.w3.org/ns/activitystreams\"",
       "application/ld+json ;profile=https://www.w3.org/ns/activitystreams",
       "application/ld+json ;profile=\"https://www.w3.org/ns/activitystreams\"",
       "application/ld+json ; profile=https://www.w3.org/ns/activitystreams",
       "application/ld+json ; profile=\"https://www.w3.org/ns/activitystreams\"",
       "application/ld+json; profile=https://www.w3.org/ns/activitystreams",
       "application/ld+json; profile=\"https://www.w3.org/ns/activitystreams\""] := by
  constructor
  · rw [IsActivityPubRequest, isActivityPubGet, isActivityPubPost]
    simp only [Bool.or_eq_true, Bool.and_eq_true, beq_iff_eq,
      headerIsActivityPubMediaType, List.any_eq_true, stringContains,
      decide_eq_true_eq]
    exact or_comm
  · decide

/-- Concrete instantiation of `IsActivityPubRequest_correct`: a POST with a
quoted-profile ld+json Content-Type is accepted. -/
theorem IsActivityPubRequest_correct_witness :
    IsActivityPubRequest
      ⟨"POST",
        "application/ld+json; profile=\"https://www.w3.org/ns/activitystreams\"",
        ""⟩ = true :=
  ((IsActivityPubRequest_correct
    ⟨"POST",
      "application/ld+json; profile=\"https://www.w3.org/ns/activitystreams\"",
      ""⟩).1).mpr
    (Or.inl ⟨rfl,
      "application/ld+json; profile=\"https://www.w3.org/ns/activitystreams\"",
      by decide, by decide⟩)

mutual
/-- A value of the JSON tree `a.Serialize()` returns, as `serialize` from
`src/pub/util.go` manipulates it: a string, a `map[string]interface\x7b\x7d`
(an association list; Go map iteration order is unspecified and only key
identity is used below), a `[]interface\x7b\x7d` array, the
`map[string]string` alias object the context branch builds (a distinct Go
type: the cleanup's type assertion to `map[string]interface\x7b\x7d` fails
on it, so it is never descended into), and an opaque leaf for every other
value. -/
inductive JSONValue where
  | str (s : String)
  | obj (fields : JSONFields)
  | arr (elems : JSONElems)
  | strObj (fields : List (String × String))
  | leaf
/-- The entries of a JSON map (spelled as a mutual inductive so everything
below is structurally recursive and kernel-computable). -/
inductive JSONFields where
  | nil
  | cons (key : String) (val : JSONValue) (rest : JSONFields)
/-- The elements of a JSON array. -/
inductive JSONElems where
  | nil
  | cons (head : JSONValue) (rest : JSONElems)
end

/-- Association-list lookup, modelling a Go map read on the serialized map. -/
def getKey : JSONFields → String → Option JSONValue
  | .nil, _ => none
  | .cons k v rest, q => if k = q then some v else getKey rest q

/-- Association-list update-or-insert, modelling the Go map assignment
`m[jsonLDContext] = contextValue`. -/
def setKey : JSONFields → String → JSONValue → JSONFields
  | .nil, k, v => .cons k v .nil
  | .cons k2 v2 rest, k, v =>
    if k2 = k then .cons k2 v rest else .cons k2 v2 (setKey rest k v)

/-- Plain list of array elements into the mutual-inductive spelling. -/
def listToElems : List JSONValue → JSONElems
  | [] => .nil
  | v :: rest => .cons v (listToElems rest)

/-- The `contextValue` computed by `serialize` from `src/pub/util.go`, from
the `JSONLDContext()` bindings: a vocabulary-to-alias map, modelled as a
list with distinct vocabulary keys whose order stands for an iteration
order. With exactly one binding the loop sets a bare IRI string (empty
alias) or a one-entry alias object; otherwise it collects the empty-alias
vocabularies into an array and appends the alias map. -/
def contextValue (v : List (String × String)) : JSONValue :=
  if v.length = 1 then
    if v.headI.2.length == 0 then .str v.headI.1
    else .strObj [(v.headI.2, v.headI.1)]
  else
    .arr (listToElems
      (((v.filter (fun p => p.2.length == 0)).map (fun p => JSONValue.str p.1)) ++
        [JSONValue.strObj
          ((v.filter (fun p => !(p.2.length == 0))).map (fun p => (p.2, p.1)))]))

mutual
/-- The body of `cleanFnRecur` from `src/pub/util.go` applied to one value
of a map: if the value is a `map[string]interface\x7b\x7d`, delete its
`@context` key and recurse into its values; any other value — including
arrays and the `map[string]string` alias object — is left untouched. -/
def cleanMapChild : JSONValue → JSONValue
  | .obj fs => .obj (cleanFields fs)
  | v => v
/-- Delete `@context` at this level, apply `cleanMapChild` to the remaining
values. -/
def cleanFields : JSONFields → JSONFields
  | .nil => .nil
  | .cons k v rest =>
    if k = "@context" then cleanFields rest
    else .cons k (cleanMapChild v) (cleanFields rest)
end

/-- `cleanFnRecur(m)` on the root map: the root's own keys (including the
just-set `@context`) are kept, each map-valued entry is cleaned. -/
def cleanFnRecur : JSONFields → JSONFields
  | .nil => .nil
  | .cons k v rest => .cons k (cleanMapChild v) (cleanFnRecur rest)

/-- Model of `serialize` from `src/pub/util.go`, given the map
`a.Serialize()` produced and the bindings `a.JSONLDContext()` returned: set
the root `@context`, then run the recursive cleanup over the root's values. -/
def serialize (fields : JSONFields) (ctx : List (String × String)) : JSONFields :=
  cleanFnRecur (setKey fields "@context" (contextValue ctx))

/-- The root `@context` value as the claim describes it (spec-side
definition written from the claim's words): a bare vocabulary IRI string
when there is exactly one binding with an empty alias, an alias-to-vocab
object when there is exactly one aliased binding, and otherwise an array of
all empty-alias vocabulary IRIs followed by a single object of all aliased
bindings. -/
def contextValueSpec (ctx : List (String × String)) : JSONValue :=
  if ctx.length = 1 ∧ ctx.headI.2 = "" then .str ctx.headI.1
  else if ctx.length = 1 then .strObj [(ctx.headI.2, ctx.headI.1)]
  else .arr (listToElems
    (((ctx.filter (fun p => p.2 == "")).map (fun p => JSONValue.str p.1)) ++
      [JSONValue.strObj
        ((ctx.filter (fun p => !(p.2 == ""))).map (fun p => (p.2, p.1)))]))

mutual
/-- No `@context` key on this value or below it, descending through map
values only (arrays block the descent) — the invariant the code
establishes. -/
def noCtxInMapChains : JSONValue → Bool
  | .obj fs => noCtxFields fs
  | _ => true
/-- `noCtxInMapChains` across a map's entries, also requiring no `@context`
key at this level. -/
def noCtxFields : JSONFields → Bool
  | .nil => true
  | .cons k v rest => !(k == "@context") && noCtxInMapChains v && noCtxFields rest
end

mutual
/-- No `@context` key anywhere below this value, descending through both
maps and arrays — what the claim asserts of every nested map of the tree. -/
def noCtxAnywhere : JSONValue → Bool
  | .obj fs => noCtxAnywhereFields fs
  | .arr es => noCtxAnywhereElems es
  | _ => true
/-- `noCtxAnywhere` across a map's entries. -/
def noCtxAnywhereFields : JSONFields → Bool
  | .nil => true
  | .cons k v rest => !(k == "@context") && noCtxAnywhere v && noCtxAnywhereFields rest
/-- `noCtxAnywhere` across an array's elements. -/
def noCtxAnywhereElems : JSONElems → Bool
  | .nil => true
  | .cons v rest => noCtxAnywhere v && noCtxAnywhereElems rest
end

/-- Every value of the root map satisfies `noCtxInMapChains` (root keys
themselves, in particular `@context`, are allowed). -/
def valuesClean : JSONFields → Bool
  | .nil => true
  | .cons _ v rest => noCtxInMapChains v && valuesClean rest

/-- Every value of the root map satisfies `noCtxAnywhere` — the claim's
reading, under which no non-root map of the tree carries `@context`. -/
def valuesClaim : JSONFields → Bool
  | .nil => true
  | .cons _ v rest => noCtxAnywhere v && valuesClaim rest

theorem getKey_setKey (fs : JSONFields) (k : String) (v : JSONValue) :
    getKey (setKey fs k v) k = some v := by
  cases fs with
  | nil => simp [setKey, getKey]
  | cons k2 v2 rest =>
    rw [setKey]
    by_cases h : k2 = k
    · rw [if_pos h, getKey, if_pos h]
    · rw [if_neg h, getKey, if_neg h]
      exact getKey_setKey rest k v

theorem getKey_cleanFnRecur (fs : JSONFields) (q : String) :
    getKey (cleanFnRecur fs) q = (getKey fs q).map cleanMapChild := by
  cases fs with
  | nil => rfl
  | cons k v rest =>
    rw [cleanFnRecur, getKey, getKey]
    by_cases h : k = q
    · rw [if_pos h, if_pos h]
      rfl
    · rw [if_neg h, if_neg h, getKey_cleanFnRecur rest q]

theorem cleanMapChild_contextValue (ctx : List (String × String)) :
    cleanMapChild (contextValue ctx) = contextValue ctx := by
  rw [contextValue]
  split
  · split <;> rfl
  · rfl

theorem string_length_eq_zero (s : String) : s.length = 0 ↔ s = "" := by
  constructor
  · intro h
    cases s with
    | mk data =>
      cases data with
      | nil => rfl
      | cons c cs => simp [String.length] at h
  · intro h
    subst h
    rfl

theorem length_beq_zero (s : String) : (s.length == 0) = (s == "") := by
  by_cases h : s = ""
  · subst h
    rfl
  · have h1 : (s == "") = false := by simp [h]
    have h2 : (s.length == 0) = false := by
      simp only [beq_eq_false_iff_ne, ne_eq, string_length_eq_zero]
      exact h
    rw [h1, h2]

theorem contextValue_eq_spec (ctx : List (String × String)) :
    contextValue ctx = contextValueSpec ctx := by
  have hf1 : ctx.filter (fun p => p.2.length == 0) =
      ctx.filter (fun p => p.2 == "") :=
    List.filter_congr (fun x _ => length_beq_zero x.2)
  have hf2 : ctx.filter (fun p => !(p.2.length == 0)) =
      ctx.filter (fun p => !(p.2 == "")) :=
    List.filter_congr (fun x _ => by rw [length_beq_zero])
  rcases ctx with _ | ⟨⟨vocabIRI, aliasStr⟩, rest⟩
  · rw [contextValue, contextValueSpec]
    norm_num
  · rcases rest with _ | ⟨q, rest2⟩
    · by_cases h : aliasStr = ""
      · subst h
        rfl
      · have hbeq : (aliasStr.length == 0) = false := by
          rw [length_beq_zero]
          simp [h]
        simp [contextValue, contextValueSpec, hbeq, h]
    · have hlen : ((vocabIRI, aliasStr) :: q :: rest2).length ≠ 1 := by
        simp
      rw [contextValue, contextValueSpec, if_neg hlen,
        if_neg (fun hc => hlen hc.1), if_neg hlen, hf1, hf2]

mutual
theorem cleanMapChild_noCtx (v : JSONValue) :
    noCtxInMapChains (cleanMapChild v) = true := by
  cases v with
  | obj fs =>
    rw [cleanMapChild, noCtxInMapChains]
    exact cleanFields_noCtx fs
  | str s => rfl
  | arr es => rfl
  | strObj fs => rfl
  | leaf => rfl
theorem cleanFields_noCtx (fs : JSONFields) :
    noCtxFields (cleanFields fs) = true := by
  cases fs with
  | nil => rfl
  | cons k v rest =>
    rw [cleanFields]
    by_cases h : k = "@context"
    · rw [if_pos h]
      exact cleanFields_noCtx rest
    · rw [if_neg h, noCtxFields]
      simp [h, cleanMapChild_noCtx v, cleanFields_noCtx rest]
end

theorem valuesClean_cleanFnRecur (fs : JSONFields) :
    valuesClean (cleanFnRecur fs) = true := by
  cases fs with
  | nil => rfl
  | cons k v rest =>
    rw [cleanFnRecur, valuesClean]
    simp [cleanMapChild_noCtx v, valuesClean_cleanFnRecur rest]

/-- C7 (amended): `serialize` sets the root `@context` per the declared
context bindings — exactly as the claim's case analysis describes, witnessed
by the equality with the spec-side `contextValueSpec` — and deletes every
`@context` key in maps reachable from the root through chains of direct map
values. Maps nested inside arrays are not visited by the cleanup, so the
claim's stronger reading ("every nested map of the serialized tree") fails;
see the counterexample. -/
theorem serialize_correct (fields : JSONFields) (ctx : List (String × String)) :
    getKey (serialize fields ctx) "@context" = some (contextValue ctx) ∧
    contextValue ctx = contextValueSpec ctx ∧
    valuesClean (serialize fields ctx) = true := by
  refine ⟨?_, contextValue_eq_spec ctx, valuesClean_cleanFnRecur _⟩
  rw [serialize, getKey_cleanFnRecur, getKey_setKey]
  rw [Option.map_some', cleanMapChild_contextValue]

/-- C7 counterexample: a map nested inside an array keeps its `@context`
after `serialize`; the serialized tree still carries a non-root `@context`. -/
theorem serialize_claim_false :
    valuesClaim (serialize
      (JSONFields.cons "object"
        (JSONValue.arr (JSONElems.cons
          (JSONValue.obj (JSONFields.cons "@context" (JSONValue.str "x")
            JSONFields.nil))
          JSONElems.nil))
        JSONFields.nil)
      [("https://www.w3.org/ns/activitystreams", "")]) = false := rfl

/-- A heap of Go byte slices: a slice is named by its index, its contents
being the byte list. This second, buffer-level view of
`src/pub/transport.go` makes every write explicit, so that what `Deliver`
does and does not mutate can be stated. -/
structure Heap where
  slices : List (List Nat)
  deriving DecidableEq, Repr

/-- The contents of slice `i` (empty for a dangling index). -/
def Heap.get (h : Heap) (i : Nat) : List Nat := h.slices.getD i []

/-- The POST request `Deliver` builds: the recipient, the slice backing the
request body (`bytes.NewBuffer(byteCopy)`) and the digest input
(`sha256.Sum256(b)` reads the payload; the hash function itself is
irrelevant to the claim and the hashed bytes are recorded instead). -/
structure PostRequest where
  target : Url
  bodySlice : Nat
  digestOf : List Nat
  deriving DecidableEq, Repr

/-- Model of `Deliver` from `src/pub/transport.go` at the buffer level: it
allocates `byteCopy := make([]byte, len(b))`, copies `b` into it (the only
write in the function body, targeting the fresh slice), and builds the POST
request from the copy. Headers, signing and the HTTP call read the request
and the clock only and never write a byte slice. -/
def Deliver (h : Heap) (b : Nat) (recipient : Url) : Heap × PostRequest :=
  (⟨h.slices ++ [h.get b]⟩,
    { target := recipient, bodySlice := h.slices.length, digestOf := h.get b })

/-- `BatchDeliver` at the buffer level: every goroutine runs `Deliver` with
the same slice `b`. The goroutines only read `b`, so the scheduling order
cannot affect any slice's contents; the model runs them in recipient
order. -/
def BatchDeliverRequests (h : Heap) (b : Nat) : List Url → Heap × List PostRequest
  | [] => (h, [])
  | r :: rest =>
    ((BatchDeliverRequests (Deliver h b r).1 b rest).1,
      (Deliver h b r).2 :: (BatchDeliverRequests (Deliver h b r).1 b rest).2)

theorem getD_append_lt (s : List (List Nat)) (c : List Nat) (i : Nat)
    (hi : i < s.length) : (s ++ [c]).getD i [] = s.getD i [] := by
  rw [List.getD_eq_getElem?_getD, List.getD_eq_getElem?_getD,
    List.getElem?_append_left hi]

theorem getD_append_self (s : List (List Nat)) (b : Nat) :
    (s ++ [s.getD b []]).getD b [] = s.getD b [] := by
  rcases Nat.lt_or_ge b s.length with h | h
  · exact getD_append_lt s _ b h
  · rcases Nat.eq_or_lt_of_le h with he | h2
    · rw [List.getD_eq_getElem?_getD, List.getElem?_append_right (Nat.le_of_eq he)]
      have hb : s.getD b [] = [] := by
        rw [List.getD_eq_getElem?_getD, List.getElem?_eq_none (Nat.le_of_eq he)]
        rfl
      rw [hb]
      have hsub : b - s.length = 0 := by omega
      rw [hsub]
      rfl
    · rw [List.getD_eq_getElem?_getD, List.getD_eq_getElem?_getD,
        List.getElem?_eq_none (by omega : s.length ≤ b),
        List.getElem?_eq_none (by simp; omega)]

theorem getD_append_length (s : List (List Nat)) (c : List Nat) :
    (s ++ [c]).getD s.length [] = c := by
  rw [List.getD_eq_getElem?_getD, List.getElem?_append_right (Nat.le_refl _)]
  simp

theorem Deliver_get_lt (h : Heap) (b : Nat) (r : Url) (i : Nat)
    (hi : i < h.slices.length) : (Deliver h b r).1.get i = h.get i :=
  getD_append_lt h.slices _ i hi

theorem Deliver_get_payload (h : Heap) (b : Nat) (r : Url) :
    (Deliver h b r).1.get b = h.get b :=
  getD_append_self h.slices b

theorem Deliver_get_body (h : Heap) (b : Nat) (r : Url) :
    (Deliver h b r).1.get (Deliver h b r).2.bodySlice = h.get b :=
  getD_append_length h.slices _

theorem BatchDeliverRequests_le_length (h : Heap) (b : Nat) (rs : List Url) :
    h.slices.length ≤ (BatchDeliverRequests h b rs).1.slices.length := by
  induction rs generalizing h with
  | nil => exact Nat.le_refl _
  | cons r rest ih =>
    rw [BatchDeliverRequests]
    have h1 : h.slices.length ≤ (Deliver h b r).1.slices.length := by
      rw [Deliver]
      simp
    exact Nat.le_trans h1 (ih _)

theorem BatchDeliverRequests_get_lt (h : Heap) (b : Nat) (rs : List Url)
    (i : Nat) (hi : i < h.slices.length) :
    (BatchDeliverRequests h b rs).1.get i = h.get i := by
  induction rs generalizing h with
  | nil => rfl
  | cons r rest ih =>
    rw [BatchDeliverRequests]
    have h1 : i < (Deliver h b r).1.slices.length := by
      rw [Deliver]
      simp
      omega
    rw [ih _ h1, Deliver_get_lt h b r i hi]

theorem BatchDeliverRequests_get_payload (h : Heap) (b : Nat) (rs : List Url) :
    (BatchDeliverRequests h b rs).1.get b = h.get b := by
  induction rs generalizing h with
  | nil => rfl
  | cons r rest ih =>
    rw [BatchDeliverRequests, ih _, Deliver_get_payload]

/-- C10: `Deliver` never mutates the caller's payload slice — nor any other
pre-existing slice — because it copies the payload into a fresh buffer
before building the POST request; hence `BatchDeliver` can hand the same
slice to every delivery task, and after the whole fan-out every request's
body and digest input equal the original payload bytes. -/
theorem Deliver_payload_immutable (h : Heap) (b : Nat) (rs : List Url) :
    ((BatchDeliverRequests h b rs).1.get b = h.get b) ∧
    (∀ i, i < h.slices.length → (BatchDeliverRequests h b rs).1.get i = h.get i) ∧
    (∀ req ∈ (BatchDeliverRequests h b rs).2,
      req.digestOf = h.get b ∧
      (BatchDeliverRequests h b rs).1.get req.bodySlice = h.get b) := by
  refine ⟨BatchDeliverRequests_get_payload h b rs,
    fun i hi => BatchDeliverRequests_get_lt h b rs i hi, ?_⟩
  induction rs generalizing h with
  | nil =>
    intro req hreq
    simp [BatchDeliverRequests] at hreq
  | cons r rest ih =>
    intro req hreq
    rw [BatchDeliverRequests] at hreq
    rcases List.mem_cons.mp hreq with rfl | hreq2
    · constructor
      · rfl
      · rw [BatchDeliverRequests]
        have hlt : (Deliver h b r).2.bodySlice < (Deliver h b r).1.slices.length := by
          rw [Deliver]
          simp
        rw [BatchDeliverRequests_get_lt _ b rest _ hlt, Deliver_get_body]
    · obtain ⟨h1, h2⟩ := ih (Deliver h b r).1 req hreq2
      rw [Deliver_get_payload] at h1 h2
      exact ⟨h1, by rw [BatchDeliverRequests]; exact h2⟩

/-- Concrete instantiation of `Deliver_payload_immutable`: a two-slice heap
delivered to two recipients leaves slice 0 unchanged. -/
theorem Deliver_payload_immutable_witness :
    (BatchDeliverRequests ⟨[[1, 2, 3], [9]]⟩ 0 [⟨"a", 0⟩, ⟨"b", 0⟩]).1.get 0 =
      Heap.get ⟨[[1, 2, 3], [9]]⟩ 0 ∧
    (BatchDeliverRequests ⟨[[1, 2, 3], [9]]⟩ 0 [⟨"a", 0⟩, ⟨"b", 0⟩]).1.get 1 =
      Heap.get ⟨[[1, 2, 3], [9]]⟩ 1 :=
  ⟨(Deliver_payload_immutable ⟨[[1, 2, 3], [9]]⟩ 0 [⟨"a", 0⟩, ⟨"b", 0⟩]).1,
    (Deliver_payload_immutable ⟨[[1, 2, 3], [9]]⟩ 0 [⟨"a", 0⟩, ⟨"b", 0⟩]).2.1 1
      (by decide)⟩

end GoFedPub
